import Mathlib

/-
  Verification development for the TXMBase reactive component base class.

  Source: the TXMBase section of the bundled source file. The JavaScript code
  is shallowly embedded: stateful methods become explicit state-passing
  functions, promise continuations become separate step functions applied when
  the corresponding task group settles, and the process-wide refresh scheduler
  becomes a transformer of an explicit queue state. Machine-level aspects that
  the claims do not touch (the Mustache template engine, the jQuery selector
  engine, and the bodies of component-supplied fetch methods) are treated as
  external collaborators, exactly as the specification scopes them.
-/

namespace TXMBase

/-! ## Refresh scheduler (queueRefresh, source lines 119-138)

    var refreshQueue = [];
    var uniqueIndex = [];
    var queueRefresh = function(refreshData) {
      if (refreshQueue.indexOf(refreshData.instanceId) === -1) {
        uniqueIndex.push(refreshData.instanceId);
        refreshQueue.push(refreshData.refresh)
      }
      var refreshCount = refreshQueue.length;
      setTimeout(function() {
        if (refreshCount == refreshQueue.length) {
          var i = refreshQueue.length;
          while (i--) refreshQueue.pop()();
          uniqueIndex.length = 0;
        }
      },10);
    };
-/

/-- JsVal models the JavaScript values stored in the two module-level arrays of
the scheduler: refreshQueue holds closures (each closure invokes the _refresh
method of one component instance, identified here by its baseClassInstance
number), and uniqueIndex holds numeric instance ids. Strict equality between
a number and a function is always false in JavaScript, which equality on this
type reflects because the two constructors are distinct. -/
inductive JsVal where
  | fn (instId : Nat)
  | num (n : Nat)
deriving DecidableEq

/-- Array.prototype.indexOf with strict equality: the index of the first
matching element, or -1 when no element matches. -/
def jsIndexOf (l : List JsVal) (v : JsVal) : Int :=
  match l.findIdx? (fun x => x == v) with
  | some i => (i : Int)
  | none => -1

/-- The process-wide scheduler state: the two module-level arrays captured by
the queueRefresh closure. -/
structure Sched where
  refreshQueue : List JsVal
  uniqueIndex : List JsVal
deriving DecidableEq

/-- Both arrays start empty when the module loads. -/
def Sched.empty : Sched := ⟨[], []⟩

/-- Synchronous body of queueRefresh. The guard in the source is
refreshQueue.indexOf(refreshData.instanceId) === -1: the numeric instance id
is searched in the array of closures. The function returns the new scheduler
state together with the value of refreshCount captured by the setTimeout
closure (the queue length recorded after the conditional push). -/
def queueRefresh (instanceId : Nat) (sch : Sched) : Sched × Nat :=
  let sch' :=
    if jsIndexOf sch.refreshQueue (.num instanceId) = -1 then
      { refreshQueue := sch.refreshQueue ++ [.fn instanceId]
        uniqueIndex := sch.uniqueIndex ++ [.num instanceId] }
    else sch
  (sch', sch'.refreshQueue.length)

/-- Projection used by the flush: each queue entry is a closure that runs the
_refresh of one instance. -/
def instIdOf : JsVal → Option Nat
  | .fn i => some i
  | .num _ => none

/-- The setTimeout continuation scheduled by queueRefresh, applied to the
captured refreshCount. When the queue length is unchanged it pops every entry
from the end (reverse insertion order), invoking each popped closure, and
clears uniqueIndex; the returned list records which instance had its _refresh
run, in invocation order. When the length changed, nothing happens. -/
def flushTimeout (captured : Nat) (sch : Sched) : Sched × List Nat :=
  if captured = sch.refreshQueue.length then
    (⟨[], []⟩, sch.refreshQueue.reverse.filterMap instIdOf)
  else (sch, [])

/-! ## DOM model

The DOM query facade (jQuery) is an external collaborator: the specification
scopes it out and only its selection, containment, cloning and replacement
operations are relied upon. A DOM node is either a text node or an element;
the classes field of an element lists the selector tokens the element matches,
so the selector engine itself stays abstract. The id field models node
identity (two distinct live DOM nodes are modeled by values that differ at
least in their id). -/

inductive Dom where
  | text (s : String)
  | elem (id : Nat) (tag : String) (classes : List String) (children : List Dom)

mutual

def Dom.beq : Dom → Dom → Bool
  | .text a, .text b => a == b
  | .elem i1 t1 c1 ch1, .elem i2 t2 c2 ch2 =>
      i1 == i2 && t1 == t2 && c1 == c2 && Dom.beqList ch1 ch2
  | _, _ => false

def Dom.beqList : List Dom → List Dom → Bool
  | [], [] => true
  | a :: as, b :: bs => Dom.beq a b && Dom.beqList as bs
  | _, _ => false

end

mutual

theorem domBeq_iff : ∀ a b : Dom, Dom.beq a b = true ↔ a = b
  | .text _, .text _ => by simp [Dom.beq]
  | .text _, .elem .. => by simp [Dom.beq]
  | .elem .., .text _ => by simp [Dom.beq]
  | .elem _ _ _ ch1, .elem _ _ _ ch2 => by
      simp [Dom.beq, domBeqList_iff ch1 ch2, and_assoc]

theorem domBeqList_iff : ∀ a b : List Dom, Dom.beqList a b = true ↔ a = b
  | [], [] => by simp [Dom.beqList]
  | [], _ :: _ => by simp [Dom.beqList]
  | _ :: _, [] => by simp [Dom.beqList]
  | a :: as, b :: bs => by
      simp [Dom.beqList, domBeq_iff a b, domBeqList_iff as bs]

end

instance : DecidableEq Dom := fun a b => decidable_of_iff _ (domBeq_iff a b)

/- All subtrees of a node, the node itself included. Node.contains(other) of
the DOM is membership of other in the subtrees of the receiver (contains is
reflexive in the DOM). -/
mutual

def subtreesOf : Dom → List Dom
  | .text s => [.text s]
  | .elem i t c ch => .elem i t c ch :: subtreesList ch

def subtreesList : List Dom → List Dom
  | [] => []
  | d :: ds => subtreesOf d ++ subtreesList ds

end

/- Preorder search for descendants-or-self matching a selector; this models
the selection of the jQuery facade, with the classes field of an element
listing the selectors it matches. findAllD handles one node (itself first,
then its children), findAllL a list of nodes in document order. -/
mutual

def findAllD (sel : String) : Dom → List Dom
  | .text _ => []
  | .elem i t cls ch =>
      (if cls.contains sel then [Dom.elem i t cls ch] else []) ++ findAllL sel ch

def findAllL (sel : String) : List Dom → List Dom
  | [] => []
  | d :: ds => findAllD sel d ++ findAllL sel ds

end

/-- A jQuery-wrapped result set: ref models the identity of the wrapper object
(a fresh value is allocated on every wrapping call), isJQ models the
instanceof test against the jQuery constructor, and doms lists the wrapped
root nodes (index access in the source reads this list). -/
structure JQR where
  ref : Nat
  isJQ : Bool
  doms : List Dom
deriving DecidableEq

/-- jqDom.find(sel): matches are searched among strict descendants of each
wrapped root, in document order. -/
def jqFind (jq : JQR) (sel : String) : List Dom :=
  (jq.doms.map (fun d =>
    match d with
    | .elem _ _ _ ch => findAllL sel ch
    | .text _ => [])).flatten

/-- Scheduler state after one refresh request for instance 5. -/
def schedOnce : Sched × Nat := queueRefresh 5 Sched.empty

/-- Scheduler state after a second refresh request for the same instance 5
within the same window. -/
def schedTwice : Sched × Nat := queueRefresh 5 schedOnce.1

/-- C1: the claim states that re-requesting a refresh for an instance whose
refresh is already queued adds nothing to the queue, and that each affected
instance runs exactly once per flush. The code violates this: the dedup guard
searches the numeric instance id inside refreshQueue, which stores closures,
so the comparison never succeeds and the guard always passes. uniqueIndex,
the array evidently intended for this test, is written but never read. At the
concrete input (two requests for instance 5 inside one window) the queue gains
two entries and the flush runs the instance 5 refresh twice, not once. -/
theorem c1_queueRefresh_runs_twice :
    schedTwice.1.refreshQueue = [.fn 5, .fn 5] ∧
    schedTwice.1.uniqueIndex = [.num 5, .num 5] ∧
    (flushTimeout schedTwice.2 schedTwice.1).2 = [5, 5] ∧
    ¬ ((flushTimeout schedTwice.2 schedTwice.1).2.count 5 = 1) := by
  decide

/-! ## Component instance state

One structure collects the per-instance properties set up by the constructor
and read or written by init, _fetch, render, _refresh and the change handler.
The alloc field is an allocation counter modeling object identity of freshly
created jQuery wrappers; the evals field counts template-engine invocations
(Mustache.render calls); loadMaskCount and hideMaskCount count invocations of
the two mask callbacks. These three are observation devices of the embedding,
not source properties. -/

/-- The value of the _refreshList property: either the boolean true (full
refresh) or an array of CSS selectors. -/
inductive RList where
  | full
  | sels (l : List String)
deriving DecidableEq

/-- The value of one uiBindings entry: true (full refresh) or an array of
selectors. -/
inductive UiBind where
  | fullB
  | selsB (sels : List String)
deriving DecidableEq

/-- The value of one dataBindings entry. -/
structure DataBind where
  delayRefresh : Bool
  methods : List String
deriving DecidableEq

/-- One change record delivered by ObservableSlim. The handler reads only the
currentPath field, so the other fields (type, target, newValue) are omitted. -/
structure Change where
  currentPath : String
deriving DecidableEq

/-- One entry of the configured initList. The condition field models the
optional condition callback: none when no callable condition was supplied
(the entry is then included), some b when the condition evaluates to b at
init time. -/
structure InitEntry where
  method : String
  preventRender : Bool
  condition : Option Bool
deriving DecidableEq

/-- The per-instance state. pendingFetchCount is an integer, as in the source
(a JavaScript number), so that the invariant that it never becomes negative
is a statement and not a typing artifact. -/
structure Inst where
  instanceId : Nat
  initialized : Bool
  pendingInit : Bool
  initRendered : Bool
  delayRefresh : Bool
  pendingRefresh : Bool
  pendingFetchCount : Int
  refreshList : RList
  jqDom : Option JQR
  cleanUpToken : Option Nat
  uiBindings : List (String × UiBind)
  dataBindings : List (String × DataBind)
  initList : List InitEntry
  methodNames : List String
  loadingDoms : List Dom
  templateDoms : List Dom
  loadMaskCount : Nat
  hideMaskCount : Nat
  alloc : Nat
  evals : Nat

/-- Component-supplied code invoked by the base class: the optional _init
post-initialization hook, the _render override (or the base class default),
the optional _renderLoading override, the child insertion step (which
recursively renders registered child components and re-anchors their cached
elements; the registry itself is embedded separately), and the optional
_postRefresh hook. The engine theorems quantify over these, so they hold for
every component built on the base class. -/
structure Hooks where
  initF : Inst → Inst
  renderF : Inst → Inst × JQR
  renderLoadingF : Option (Inst → Inst × JQR)
  insertChildrenF : Inst → JQR → Inst
  postRefreshF : Inst → Inst

/-- The base class default _render: render the first configured template
against the data (one Mustache.render call) and wrap the parsed markup in a
fresh jQuery object. -/
def defaultRender (s : Inst) : Inst × JQR :=
  ({ s with alloc := s.alloc + 1, evals := s.evals + 1 },
   ⟨s.alloc, true, s.templateDoms⟩)

/-- Hooks of a component that overrides nothing. -/
def noHooks : Hooks :=
  { initF := id
    renderF := defaultRender
    renderLoadingF := none
    insertChildrenF := fun s _ => s
    postRefreshF := id }

/-! ## init (source lines 455-545) -/

/-- The sanity check at the top of init: every method named by a data binding
must exist as a function on the instance. -/
def cfgMethodsOk (s : Inst) : Bool :=
  s.dataBindings.all (fun kb => kb.2.methods.all (fun m => s.methodNames.contains m))

/-- InitList entries whose optional condition did not veto them. -/
def initEntries (s : Inst) : List InitEntry :=
  s.initList.filter (fun e =>
    match e.condition with
    | some c => c
    | none => true)

/-- Synchronous body of init: validate the data bindings, build the active
(preventRender) and passive promise groups from the condition-filtered
initList, and update the counters. The promise executors invoke the
component fetch methods; their asynchronous settlement is modeled by the
separate continuation functions below. When no active promise exists the
instance is marked initialized synchronously and the optional _init hook runs
immediately. -/
def init (h : Hooks) (s : Inst) : Except String Inst :=
  if cfgMethodsOk s = false then
    .error "TXMBase::init cannot continue: data binding method missing"
  else
    let actives := (initEntries s).filter (fun e => e.preventRender)
    let passives := (initEntries s).filter (fun e => !e.preventRender)
    let s1 :=
      if actives.length > 0 then
        { s with pendingFetchCount := s.pendingFetchCount + 1, pendingInit := true }
      else
        h.initF { s with initialized := true }
    let s2 :=
      if passives.length > 0 then
        { s1 with pendingFetchCount := s1.pendingFetchCount + 1 }
      else s1
    .ok s2

/-- Continuation run when Promise.all of the active init group resolves: mark
initialized, clear pendingInit, force a full refresh, queue it, run the
optional _init hook, and decrement the fetch counter. -/
def initActiveOk (h : Hooks) (st : Inst × Sched) : Inst × Sched :=
  let s := st.1
  let s := { s with initialized := true, pendingInit := false,
                    refreshList := RList.full, pendingRefresh := true }
  let q := (queueRefresh s.instanceId st.2).1
  let s := h.initF s
  ({ s with pendingFetchCount := s.pendingFetchCount - 1 }, q)

/-- Continuation run when the active init group rejects: the catch handler
only logs the failure, so the state is unchanged; in particular the fetch
counter is not decremented. -/
def initActiveFail (st : Inst × Sched) : Inst × Sched := st

/-- Continuation run when the passive init group resolves. -/
def initPassiveOk (st : Inst × Sched) : Inst × Sched :=
  ({ st.1 with pendingFetchCount := st.1.pendingFetchCount - 1 }, st.2)

/-- Continuation run when the passive init group rejects: log only. -/
def initPassiveFail (st : Inst × Sched) : Inst × Sched := st

/-! ## _fetch (source lines 559-623) -/

/-- Synchronous body of _fetch: engage the delay-refresh gate and show the
load mask when requested and the list is non-empty, and increment the fetch
counter when a group actually starts. The promise executors invoke the named
fetch methods; settlement of the whole group is modeled by the continuations
below. -/
def _fetch (delayRefresh : Bool) (fetchList : List String) (s : Inst) : Inst :=
  let s :=
    if delayRefresh = true ∧ fetchList.length > 0 then
      { s with delayRefresh := true, loadMaskCount := s.loadMaskCount + 1 }
    else s
  if fetchList.length > 0 then
    { s with pendingFetchCount := s.pendingFetchCount + 1 }
  else s

/-- The test the source writes as
refreshList == true or refreshList.length greater than zero. -/
def refreshPending (rl : RList) : Bool :=
  match rl with
  | .full => true
  | .sels l => l.length > 0

/-- Continuation run when Promise.all of a _fetch group resolves: clear the
delay-refresh gate, hide the load mask when one was shown, queue a refresh if
one is pending, decrement the fetch counter. The loadMask argument is the
local variable captured by the closure in the source. -/
def fetchGroupOk (loadMask : Bool) (st : Inst × Sched) : Inst × Sched :=
  let s := { st.1 with delayRefresh := false }
  let s := if loadMask then { s with hideMaskCount := s.hideMaskCount + 1 } else s
  let q := if refreshPending s.refreshList then (queueRefresh s.instanceId st.2).1 else st.2
  ({ s with pendingFetchCount := s.pendingFetchCount - 1 }, q)

/-- Continuation run when a _fetch group rejects: the catch handler only logs,
so nothing changes; in particular the fetch counter is not decremented and the
delay-refresh gate stays engaged. -/
def fetchGroupFail (st : Inst × Sched) : Inst × Sched := st

/-! ## Change handler (ObservableSlim onChange, source lines 347-425)

The handler loops over the delivered change records from the last to the
first (while i--). For each record it scans the ui bindings, growing the
refresh list or forcing it to full, and scans the data bindings, collecting
fetch methods and an OR of the delayRefresh flags; it then calls _fetch and,
when a refresh is pending, queues it. Binding keys delimited by slashes are
regular expressions; the regular-expression engine is abstracted by an oracle
argument rx taking the pattern body and the path, so every theorem about the
handler holds for any oracle. -/

/-- Tests whether a binding key is written as a slash-delimited regular
expression: charAt(0) and charAt(length-1) both equal the slash. -/
def isRegexDelim (k : String) : Bool :=
  match k.data with
  | [] => false
  | c :: cs => c == '/' && (c :: cs).getLast (by simp) == '/'

/-- The pattern text between the delimiters: substring(1, length-1). -/
def patternBody (k : String) : String :=
  String.mk ((k.data.drop 1).dropLast)

/-- One ui binding tested against one change record path. When the refresh
list is already full the source skips the whole update; a matching binding
with value true forces full; a matching selector binding concatenates its
selectors. -/
def uiStep (rx : String → String → Bool) (path : String)
    (rl : RList) (kb : String × UiBind) : RList :=
  let regExpBinding := isRegexDelim kb.1 && rx (patternBody kb.1) path
  if rl ≠ RList.full ∧ (kb.1 = path ∨ regExpBinding = true) then
    match kb.2 with
    | .fullB => RList.full
    | .selsB s =>
      match rl with
      | .full => RList.full
      | .sels cur => RList.sels (cur ++ s)
  else rl

/-- One data binding tested against one change record path: accumulate the OR
of the delayRefresh flags and concatenate the method lists. -/
def dataStep (rx : String → String → Bool) (path : String)
    (acc : Bool × List String) (kb : String × DataBind) : Bool × List String :=
  let regExpBinding := isRegexDelim kb.1 && rx (patternBody kb.1) path
  if kb.1 = path ∨ regExpBinding = true then
    (acc.1 || kb.2.delayRefresh, acc.2 ++ kb.2.methods)
  else acc

/-- Processing of one change record: all ui bindings, then all data
bindings. -/
def changeStep (rx : String → String → Bool)
    (ui : List (String × UiBind)) (db : List (String × DataBind))
    (st : RList × Bool × List String) (c : Change) : RList × Bool × List String :=
  let rl := ui.foldl (uiStep rx c.currentPath) st.1
  let df := db.foldl (dataStep rx c.currentPath) (st.2.1, st.2.2)
  (rl, df.1, df.2)

/-- The full loop over the change records, in source order last to first,
starting from the current refresh list, delayRefresh false and an empty
fetch list. -/
def processChanges (rx : String → String → Bool) (s : Inst)
    (changes : List Change) : RList × Bool × List String :=
  (changes.reverse).foldl (changeStep rx s.uiBindings s.dataBindings)
    (s.refreshList, false, [])

/-- The whole onChange handler. Nothing at all happens until the instance has
been marked initialized: the complete body is wrapped in that test. Otherwise
the records are processed, _fetch is invoked with the accumulated flags, and
a pending refresh is queued on the process-wide scheduler. -/
def onChange (rx : String → String → Bool) (changes : List Change)
    (st : Inst × Sched) : Inst × Sched :=
  let s := st.1
  if s.initialized = true then
    let r := processChanges rx s changes
    let s := { s with refreshList := r.1 }
    let s := _fetch r.2.1 r.2.2 s
    if refreshPending s.refreshList then
      ({ s with pendingRefresh := true }, (queueRefresh s.instanceId st.2).1)
    else (s, st.2)
  else st

/-! ## render (source lines 633-681) and _renderWithChildren (683-725) -/

/-- The validation applied to the result of the component _render override:
jqDom.length greater than zero, jqDom instanceof the jQuery constructor, and
jqDom[0] instanceof HTMLElement. Note the length test is greater than zero,
not equal to one. -/
def renderCheckOk (jq : JQR) : Bool :=
  jq.doms.length > 0 && jq.isJQ &&
    (match jq.doms.head? with
     | some (Dom.elem ..) => true
     | _ => false)

/-- Message of the error thrown when the validation fails inside render. -/
def renderContractMsg : String :=
  "render cannot continue: _render must return a jQuery-referenced DOM element"

/-- Message of the same validation failure inside _renderWithChildren. -/
def renderWithChildrenMsg : String :=
  "_renderWithChildren cannot continue: _render must return a jQuery-referenced DOM element"

/-- The default loading view: Mustache.render of the loading template against
no data (one template evaluation), wrapped in a fresh jQuery object. -/
def allocLoading (s : Inst) : Inst × JQR :=
  ({ s with alloc := s.alloc + 1, evals := s.evals + 1 },
   ⟨s.alloc, true, s.loadingDoms⟩)

/-- The public render method. Starts init when the instance is neither
initialized nor initializing; renders the loading view while initialization
is pending (custom _renderLoading first, else the loading template); returns
the cached tree unchanged when there is nothing to refresh and a full render
already happened; otherwise performs the full render: invoke the _render
override, validate, insert children, mark rendered. In every branch the
result is stored back into jqDom before being returned. -/
def render (h : Hooks) (s0 : Inst) : Except String (Inst × Option JQR) := do
  let s ← if s0.initialized = false ∧ s0.pendingInit = false then init h s0
          else Except.ok s0
  if s.initialized = false ∧ s.pendingInit = true then
    match h.renderLoadingF with
    | some f =>
        let p := f s
        Except.ok ({ p.1 with jqDom := some p.2 }, some p.2)
    | none =>
        let p := allocLoading s
        Except.ok ({ p.1 with jqDom := some p.2 }, some p.2)
  else
    if s.refreshList = RList.sels [] ∧ s.initRendered = true then
      Except.ok (s, s.jqDom)
    else
      let p := h.renderF s
      if renderCheckOk p.2 = false then
        Except.error renderContractMsg
      else
        let s2 := h.insertChildrenF p.1 p.2
        Except.ok ({ s2 with initRendered := true, jqDom := some p.2 }, some p.2)

/-- The private variant used by _refresh and by child insertion: same
branches as render, but the cached-tree shortcut is absent, initRendered is
not set and jqDom is not overwritten. On the loading branch the source
returns an undefined insertedChildren entry; that branch is reachable only
for uninitialized instances. -/
def _renderWithChildren (h : Hooks) (s0 : Inst) : Except String (Inst × JQR) := do
  let s ← if s0.initialized = false ∧ s0.pendingInit = false then init h s0
          else Except.ok s0
  if s.initialized = false ∧ s.pendingInit = true then
    match h.renderLoadingF with
    | some f => Except.ok (f s)
    | none => Except.ok (allocLoading s)
  else
    let p := h.renderF s
    if renderCheckOk p.2 = false then
      Except.error renderWithChildrenMsg
    else
      Except.ok (h.insertChildrenF p.1 p.2, p.2)

/-! ## _refresh (source lines 903-1016) -/

/-- The selector dedup step of _refresh, written in the source as
refreshList.filter(function(item, pos) (return refreshList.indexOf(item) ==
pos)): an element is kept exactly when its position is the first position at
which it occurs. -/
def dedupeJS (l : List String) : List String :=
  (l.enum.filter (fun p => l.indexOf p.2 == p.1)).map (fun p => p.2)

/-- First match of a selector inside the current tree:
this.jqDom.find(sel)[0]. When the selector has no match, index 0 of the
jQuery set is undefined. -/
def elemOfSel (jq : JQR) (sel : String) : Option Dom :=
  (jqFind jq sel).head?

/-- domCheck.contains(domCurr) for the two first matches. A DOM node contains
another exactly when the other belongs to its subtrees (contains is
reflexive). Node.contains(undefined) is false. When domCheck itself is
undefined the source would throw a TypeError before reaching the comparison;
the theorems below are stated under the precondition that every selector in
the list matches, so that case is never exercised; it is mapped to false. -/
def jsContains : Option Dom → Option Dom → Bool
  | some p, some c => decide (c ∈ subtreesOf p)
  | some _, none => false
  | none, _ => false

/-- The containment sweep of _refresh, in functional form. The source walks
the array from the last index to the first (while a--), and for the current
selector tests every other selector currently in the array (while b-- with a
!== b); on the first other selector whose first match contains the first
match of the current selector, the current selector is spliced out. Removal
at the current index never shifts the indices below it, so the walk visits
each original element exactly once; the first argument list holds the not yet
visited elements in visiting order (original order reversed) and the second
the survivors. -/
def pruneRev (jq : JQR) : List String → List String → List String
  | [], kept => kept
  | x :: rest, kept =>
      let others := rest.reverse ++ kept
      if others.any (fun y => jsContains (elemOfSel jq y) (elemOfSel jq x)) then
        pruneRev jq rest kept
      else
        pruneRev jq rest (x :: kept)

/-- The whole containment sweep applied to a selector list. -/
def pruneContained (jq : JQR) (l : List String) : List String :=
  pruneRev jq l.reverse []

/-- The selector list _refresh actually patches: dedup always, containment
sweep only when more than one selector remains. -/
def refreshSelectors (jq : JQR) (l : List String) : List String :=
  let d := dedupeJS l
  if d.length > 1 then pruneContained jq d else d

/- Replacement of a node by another inside a tree, modeling
jqOld.replaceWith(jqNew); node identity is value identity of the embedding. -/
mutual

def replaceD (o n : Dom) : Dom → Dom
  | .text s => if Dom.text s = o then n else .text s
  | .elem i t c ch =>
      if Dom.elem i t c ch = o then n else .elem i t c (replaceList o n ch)

def replaceList (o n : Dom) : List Dom → List Dom
  | [] => []
  | d :: ds => replaceD o n d :: replaceList o n ds

end

/- Removal of a node from a tree, modeling replaceWith applied with an empty
replacement set. -/
mutual

def removeD (o : Dom) : Dom → Dom
  | .text s => .text s
  | .elem i t c ch => .elem i t c (removeList o ch)

def removeList (o : Dom) : List Dom → List Dom
  | [] => []
  | d :: ds => if d = o then removeList o ds else removeD o d :: removeList o ds

end

/-- Message of the error thrown when a refresh selector matches more than one
element on either side. -/
def refreshMultiMsg : String :=
  "TXMBase::refresh cannot continue: refresh selector has multiple targets"

/-- One iteration of the patch loop of _refresh: locate the selector in the
old and in the freshly rendered tree; more than one match on either side is a
fatal ambiguity; exactly one on each side replaces the old element with the
new one in place; an empty old set makes replaceWith a no-op; an empty new
set removes the old element. -/
def patchOne (newJq : JQR) (cur : JQR) (sel : String) : Except String JQR :=
  let jqOld := jqFind cur sel
  let jqNew := jqFind newJq sel
  if jqOld.length > 1 ∨ jqNew.length > 1 then
    Except.error refreshMultiMsg
  else
    match jqOld.head?, jqNew.head? with
    | some o, some n => Except.ok { cur with doms := replaceList o n cur.doms }
    | some o, none => Except.ok { cur with doms := removeList o cur.doms }
    | none, _ => Except.ok cur

/-- The _refresh method. A no-op unless the instance is initialized and the
delay-refresh gate is clear. With no rendered tree yet it performs a plain
render. Otherwise: a non-empty selector list is deduplicated and swept for
contained selectors, a full new tree is rendered with children, each
surviving selector is patched from the last to the first, and the refresh
list is cleared; the boolean true refresh list renders a full new tree,
replaces the old root in its parent context (outside the instance state),
clears the refresh list and runs the optional _postRefresh hook. Both paths
finally store a fresh clean-up token (the source draws it from Math.random;
here it is an explicit argument) for the deferred orphan sweep, which acts on
the child registry and is embedded separately. -/
def _refresh (h : Hooks) (freshToken : Nat) (st : Inst × Sched) :
    Except String (Inst × Sched) :=
  let s := st.1
  if s.initialized = true ∧ s.delayRefresh = false then
    match s.jqDom with
    | none => do
        let r ← render h s
        Except.ok (r.1, st.2)
    | some jqOld => do
        let p ←
          (match s.refreshList with
           | RList.sels l =>
             if l.length > 0 then do
               let pruned := refreshSelectors jqOld l
               let s1 := { s with refreshList := RList.sels pruned }
               let rwc ← _renderWithChildren h s1
               let patched ← (pruned.reverse).foldlM (patchOne rwc.2) jqOld
               let s2 := { rwc.1 with jqDom := some patched, refreshList := RList.sels [] }
               Except.ok (s2, st.2)
             else Except.ok (s, st.2)
           | RList.full => do
               let r ← render h s
               let s2 := { r.1 with refreshList := RList.sels [] }
               Except.ok (h.postRefreshF s2, st.2))
        Except.ok ({ p.1 with cleanUpToken := some freshToken }, p.2)
  else Except.ok (s, st.2)

/-- The public refresh method: force a full refresh and queue it. -/
def refresh (st : Inst × Sched) : Inst × Sched :=
  let s := { st.1 with pendingRefresh := true, refreshList := RList.full }
  (s, (queueRefresh s.instanceId st.2).1)

/-! ## Concrete sample states used by the claim witnesses -/

/-- Baseline instance state as the constructor leaves it for a component with
no bindings and an empty initList: not initialized, no pending init, zero
pending fetches, empty refresh list, nothing rendered. The allocation counter
starts at 10 so that fresh wrapper identities are recognizable. -/
def freshInst : Inst :=
  { instanceId := 0
    initialized := false
    pendingInit := false
    initRendered := false
    delayRefresh := false
    pendingRefresh := false
    pendingFetchCount := 0
    refreshList := RList.sels []
    jqDom := none
    cleanUpToken := none
    uiBindings := []
    dataBindings := []
    initList := []
    methodNames := []
    loadingDoms := [Dom.elem 0 "div" [] []]
    templateDoms := [Dom.elem 1 "div" [] []]
    loadMaskCount := 0
    hideMaskCount := 0
    alloc := 10
    evals := 0 }

/-- A cached rendered tree used by the quiescent-instance sample. -/
def cachedJq : JQR := ⟨5, true, [Dom.elem 2 "div" [] []]⟩

/-- An initialized, fully rendered, quiescent instance. -/
def quiesInst : Inst :=
  { freshInst with initialized := true, initRendered := true, jqDom := some cachedJq }

/-- An instance whose initialization is pending. -/
def loadingInst : Inst :=
  { freshInst with pendingInit := true }

/-- An initialized instance with a forced full refresh pending, so that
render takes the full-render branch. -/
def fullInst : Inst :=
  { freshInst with initialized := true, refreshList := RList.full }

/-- Hooks of a component whose _render override returns a jQuery set wrapping
two root elements. -/
def multiRootHooks : Hooks :=
  { noHooks with
      renderF := fun s =>
        (s, ⟨s.alloc, true, [Dom.elem 2 "div" [] [], Dom.elem 3 "div" [] []]⟩) }

/-- Hooks of a component whose _render override returns an empty jQuery
set. -/
def emptyRootHooks : Hooks :=
  { noHooks with renderF := fun s => (s, ⟨s.alloc, true, []⟩) }

/-! ## C5: mutations before initialization have no side effects -/

/-- C5: for every mutation batch delivered before the initialized flag is
set, the change handler leaves the instance and the scheduler queue
completely unchanged: in particular the refresh list, pendingFetchCount, the
delay-refresh gate, the mask counters and the queue are untouched, because
the whole handler body is guarded by the initialized test. -/
theorem c5_uninitialized_handler_inert (rx : String → String → Bool)
    (changes : List Change) (s : Inst) (q : Sched)
    (hinit : s.initialized = false) :
    onChange rx changes (s, q) = (s, q) := by
  simp [onChange, hinit]

/-- Witness for C5 at a concrete input. -/
theorem c5_witness :
    freshInst.initialized = false ∧
    onChange (fun _ _ => false) [⟨"person_id"⟩] (freshInst, Sched.empty) =
      (freshInst, Sched.empty) :=
  ⟨rfl, c5_uninitialized_handler_inert (fun _ _ => false) [⟨"person_id"⟩]
    freshInst Sched.empty rfl⟩

/-! ## C6: render is idempotent on a quiescent instance -/

/-- C6: on an initialized instance whose refresh list is an empty selector
array and which has completed a prior full render, render returns the cached
tree by reference and changes nothing: the returned value is exactly the
stored jqDom and the instance state (in particular the template evaluation
counter evals) is unchanged. -/
theorem c6_render_idempotent (h : Hooks) (s : Inst) (d : JQR)
    (hinit : s.initialized = true) (hrl : s.refreshList = RList.sels [])
    (hrend : s.initRendered = true) (hdom : s.jqDom = some d) :
    render h s = Except.ok (s, some d) := by
  simp [render, bind, Except.bind, hinit, hrl, hrend, hdom]

/-- Witness for C6 at a concrete input. -/
theorem c6_witness :
    quiesInst.initialized = true ∧
    render noHooks quiesInst = Except.ok (quiesInst, some cachedJq) :=
  ⟨rfl, c6_render_idempotent noHooks quiesInst cachedJq rfl rfl rfl rfl⟩

/-! ## C10: render while initialization is pending -/

/-- C10: while initialization is pending (initialized false, pendingInit
true) and no custom _renderLoading override is supplied, every render call
builds a fresh loading tree from the loading template, overwrites the cached
jqDom with it, and leaves the initRendered flag unchanged; two consecutive
calls return distinct references. -/
theorem c10_loading_render_fresh (h : Hooks) (s : Inst)
    (hi : s.initialized = false) (hp : s.pendingInit = true)
    (hl : h.renderLoadingF = none) :
    ∀ (s1 : Inst) (r1 : JQR) (s2 : Inst) (r2 : JQR),
      render h s = Except.ok (s1, some r1) →
      render h s1 = Except.ok (s2, some r2) →
      s1.jqDom = some r1 ∧
      s2.jqDom = some r2 ∧
      s1.initRendered = s.initRendered ∧
      s2.initRendered = s.initRendered ∧
      r1 ≠ r2 := by
  have e1 : render h s = Except.ok ({ s with alloc := s.alloc + 1, evals := s.evals + 1, jqDom := some ⟨s.alloc, true, s.loadingDoms⟩ }, some ⟨s.alloc, true, s.loadingDoms⟩) := by
    simp [render, bind, Except.bind, hi, hp, hl, allocLoading]
  have e2 : render h ({ s with alloc := s.alloc + 1, evals := s.evals + 1, jqDom := some ⟨s.alloc, true, s.loadingDoms⟩ } : Inst) = Except.ok ({ s with alloc := s.alloc + 2, evals := s.evals + 2, jqDom := some ⟨s.alloc + 1, true, s.loadingDoms⟩ }, some ⟨s.alloc + 1, true, s.loadingDoms⟩) := by
    simp [render, bind, Except.bind, hi, hp, hl, allocLoading]
  intro s1 r1 s2 r2 h1 h2
  rw [e1] at h1
  injection h1 with h1
  injection h1 with hs1 hr1
  injection hr1 with hr1
  subst hs1
  subst hr1
  rw [e2] at h2
  injection h2 with h2
  injection h2 with hs2 hr2
  injection hr2 with hr2
  subst hs2
  subst hr2
  refine ⟨rfl, rfl, rfl, rfl, ?_⟩
  intro hcontra
  have : s.alloc = s.alloc + 1 := congrArg JQR.ref hcontra
  omega

/-- The loading tree produced by the first render call while initialization
is pending on the sample instance. -/
def c10Jq1 : JQR := ⟨10, true, [Dom.elem 0 "div" [] []]⟩

/-- The loading tree produced by the second call. -/
def c10Jq2 : JQR := ⟨11, true, [Dom.elem 0 "div" [] []]⟩

/-- The instance state after the first loading render. -/
def c10State1 : Inst := { loadingInst with alloc := 11, evals := 1, jqDom := some c10Jq1 }

/-- The instance state after the second loading render. -/
def c10State2 : Inst := { loadingInst with alloc := 12, evals := 2, jqDom := some c10Jq2 }

/-- Witness for C10 at a concrete input. -/
theorem c10_witness :
    c10State1.jqDom = some c10Jq1 ∧
    c10State2.jqDom = some c10Jq2 ∧
    c10State1.initRendered = loadingInst.initRendered ∧
    c10State2.initRendered = loadingInst.initRendered ∧
    c10Jq1 ≠ c10Jq2 :=
  c10_loading_render_fresh noHooks loadingInst rfl rfl rfl
    c10State1 c10Jq1 c10State2 c10Jq2 rfl rfl

/-! ## C3: the render contract validation -/

/-- C3 counterexample: the claim says a full render raises the contract error
whenever the _render override does not return exactly one root element. On an
initialized instance whose override returns a two-root jQuery set, render
succeeds (the source tests only length greater than zero), so the claim as
stated is false at this concrete input. -/
theorem c3_counterexample :
    render multiRootHooks fullInst =
      Except.ok
        ({ fullInst with initRendered := true, jqDom := some ⟨fullInst.alloc, true, [Dom.elem 2 "div" [] [], Dom.elem 3 "div" [] []]⟩ },
         some ⟨fullInst.alloc, true, [Dom.elem 2 "div" [] [], Dom.elem 3 "div" [] []]⟩) ∧
    ¬ ((multiRootHooks.renderF fullInst).2.doms.length = 1) := by
  constructor
  · rfl
  · decide

/-- C3 as amended: in the full-render branch on an initialized instance,
render raises the synchronous contract error exactly when the override result
fails the weaker source test renderCheckOk (non-empty jQuery-wrapped set
whose first entry is an HTMLElement); a result with more than one root
element passes and is accepted. -/
theorem c3_render_contract_check (h : Hooks) (s : Inst)
    (hinit : s.initialized = true)
    (hfull : ¬ (s.refreshList = RList.sels [] ∧ s.initRendered = true)) :
    render h s = Except.error renderContractMsg ↔
      renderCheckOk (h.renderF s).2 = false := by
  by_cases hc : renderCheckOk (h.renderF s).2 = false <;>
    simp [render, bind, Except.bind, hinit, hfull, hc]

/-- Witness for C3 at a concrete input: an override returning an empty set
fails the check and render raises the contract error. -/
theorem c3_witness :
    render emptyRootHooks fullInst = Except.error renderContractMsg ↔
      renderCheckOk (emptyRootHooks.renderF fullInst).2 = false :=
  c3_render_contract_check emptyRootHooks fullInst rfl (by decide)

/-! ## C4: the refresh state is sticky toward full -/

/-- One ui binding never narrows a full refresh list: the whole update is
guarded by the test that the list is not already true. -/
theorem uiStep_full (rx : String → String → Bool) (path : String)
    (kb : String × UiBind) : uiStep rx path RList.full kb = RList.full := by
  simp [uiStep]

/-- The whole ui binding scan preserves a full refresh list. -/
theorem foldl_uiStep_full (rx : String → String → Bool) (path : String)
    (ui : List (String × UiBind)) :
    ui.foldl (uiStep rx path) RList.full = RList.full := by
  induction ui with
  | nil => rfl
  | cons kb t ih => simp [List.foldl_cons, uiStep_full, ih]

/-- The loop over the change records preserves a full refresh list. -/
theorem foldl_changeStep_full (rx : String → String → Bool)
    (ui : List (String × UiBind)) (db : List (String × DataBind))
    (cs : List Change) (st : RList × Bool × List String)
    (h1 : st.1 = RList.full) :
    (cs.foldl (changeStep rx ui db) st).1 = RList.full := by
  induction cs generalizing st with
  | nil => exact h1
  | cons c t ih =>
      rw [List.foldl_cons]
      apply ih
      simp [changeStep, h1, foldl_uiStep_full]

/-- _fetch never writes the refresh list. -/
theorem _fetch_refreshList (d : Bool) (fl : List String) (s : Inst) :
    (_fetch d fl s).refreshList = s.refreshList := by
  unfold _fetch
  split <;> split <;> rfl

/-- C4: the refresh state is sticky toward full. First conjunct: once the
refresh list has been set to the boolean true, processing any further change
batch leaves it true, whatever the oracle, the records, the bindings and the
queue. Second conjunct: a _refresh pass that runs on a full refresh list (the
instance initialized, the delay gate clear, a rendered tree present) and
succeeds resets the refresh list to the empty selector array; the hypothesis
on the _postRefresh hook states that this component hook does not itself
write the refresh list, which holds in particular when the hook is absent. -/
theorem c4_full_sticky_until_consumed :
    (∀ (rx : String → String → Bool) (changes : List Change) (s : Inst) (q : Sched),
        s.refreshList = RList.full →
        ((onChange rx changes (s, q)).1).refreshList = RList.full) ∧
    (∀ (h : Hooks) (tok : Nat) (s : Inst) (q : Sched) (s' : Inst) (q' : Sched),
        s.refreshList = RList.full → s.initialized = true →
        s.delayRefresh = false → s.jqDom ≠ none →
        (∀ t, (h.postRefreshF t).refreshList = t.refreshList) →
        _refresh h tok (s, q) = Except.ok (s', q') →
        s'.refreshList = RList.sels []) := by
  constructor
  · intro rx changes s q hrl
    by_cases hini : s.initialized = true
    · have hr : (processChanges rx s changes).1 = RList.full := by
        unfold processChanges
        exact foldl_changeStep_full rx s.uiBindings s.dataBindings
          changes.reverse (s.refreshList, false, []) hrl
      simp only [onChange, hini, if_true]
      split
      · simp [_fetch_refreshList, hr]
      · simp [_fetch_refreshList, hr]
    · simp only [onChange, hini, if_false]
      exact hrl
  · intro h tok s q s' q' hrl hini hdelay hdom hpost hrun
    match hjq : s.jqDom with
    | none => exact absurd hjq hdom
    | some jqOld =>
      cases hr : render h s with
      | error e =>
          simp [_refresh, hini, hdelay, hjq, hrl, hr, bind, Except.bind] at hrun
      | ok r =>
          simp [_refresh, hini, hdelay, hjq, hrl, hr, bind, Except.bind] at hrun
          have hs' := hrun.1
          subst hs'
          simp [hpost]

/-- An initialized instance with a pending full refresh and a rendered
tree. -/
def c4Inst : Inst := { fullInst with jqDom := some cachedJq }

/-- The state _refresh leaves behind at the witness input. -/
def c4ResultInst : Inst :=
  { c4Inst with alloc := 11, evals := 1, initRendered := true, jqDom := some ⟨10, true, [Dom.elem 1 "div" [] []]⟩, refreshList := RList.sels [], cleanUpToken := some 7 }

/-- Witness for C4 at concrete inputs: a change batch processed on a full
refresh list leaves it full, and a successful _refresh pass on the same state
resets it to the empty array. -/
theorem c4_witness :
    ((onChange (fun _ _ => false) [⟨"person_id"⟩] (c4Inst, Sched.empty)).1).refreshList
        = RList.full ∧
    c4ResultInst.refreshList = RList.sels [] :=
  ⟨c4_full_sticky_until_consumed.1 (fun _ _ => false) [⟨"person_id"⟩] c4Inst
      Sched.empty rfl,
   c4_full_sticky_until_consumed.2 noHooks 7 c4Inst Sched.empty c4ResultInst
      Sched.empty rfl rfl rfl (by simp [c4Inst, fullInst, freshInst, cachedJq])
      (fun _ => rfl) rfl⟩

/-! ## C7: contained selectors are pruned before patching

Auxiliary order theory of DOM containment: membership in subtreesOf is
reflexive, transitive and antisymmetric, the last by a size argument. -/

mutual

theorem subtreesOf_size : ∀ (a : Dom), ∀ b ∈ subtreesOf a, b = a ∨ sizeOf b < sizeOf a
  | .text s => by
      intro b hb
      simp [subtreesOf] at hb
      exact Or.inl hb
  | .elem i t c ch => by
      intro b hb
      simp only [subtreesOf, List.mem_cons] at hb
      rcases hb with h | hb
      · exact Or.inl h
      · have h1 := subtreesList_size ch b hb
        have h2 : sizeOf ch < sizeOf (Dom.elem i t c ch) := by
          simp only [Dom.elem.sizeOf_spec]
          omega
        exact Or.inr (by omega)

theorem subtreesList_size : ∀ (l : List Dom), ∀ b ∈ subtreesList l, sizeOf b < sizeOf l
  | [] => by intro b hb; simp [subtreesList] at hb
  | d :: ds => by
      intro b hb
      simp only [subtreesList, List.mem_append] at hb
      have hd : sizeOf d < sizeOf (d :: ds) := by
        simp only [List.cons.sizeOf_spec]
        omega
      have hds : sizeOf ds < sizeOf (d :: ds) := by
        simp only [List.cons.sizeOf_spec]
        omega
      rcases hb with hb | hb
      · rcases subtreesOf_size d b hb with h | h
        · subst h; omega
        · omega
      · have := subtreesList_size ds b hb
        omega

end

mutual

theorem subtreesOf_trans : ∀ (a : Dom), ∀ b ∈ subtreesOf a, ∀ c ∈ subtreesOf b, c ∈ subtreesOf a
  | .text s => by
      intro b hb c hc
      simp [subtreesOf] at hb
      subst hb
      exact hc
  | .elem i t cl ch => by
      intro b hb c hc
      simp only [subtreesOf, List.mem_cons] at hb ⊢
      rcases hb with h | hb
      · subst h
        simpa [subtreesOf] using hc
      · exact Or.inr (subtreesList_trans ch b hb c hc)

theorem subtreesList_trans : ∀ (l : List Dom), ∀ b ∈ subtreesList l, ∀ c ∈ subtreesOf b, c ∈ subtreesList l
  | [] => by intro b hb; simp [subtreesList] at hb
  | d :: ds => by
      intro b hb c hc
      simp only [subtreesList, List.mem_append] at hb ⊢
      rcases hb with hb | hb
      · exact Or.inl (subtreesOf_trans d b hb c hc)
      · exact Or.inr (subtreesList_trans ds b hb c hc)

end

theorem subtrees_antisymm {a b : Dom} (hab : b ∈ subtreesOf a)
    (hba : a ∈ subtreesOf b) : a = b := by
  rcases subtreesOf_size a b hab with h | h1
  · exact h.symm
  · rcases subtreesOf_size b a hba with h | h2
    · exact h
    · omega

theorem jsContains_trans {a b c : Option Dom} (h1 : jsContains a b = true)
    (h2 : jsContains b c = true) : jsContains a c = true := by
  match a, b, c with
  | some da, some db, some dc =>
      simp only [jsContains, decide_eq_true_eq] at h1 h2 ⊢
      exact subtreesOf_trans da db h1 dc h2
  | some _, some _, none => simp [jsContains] at h2
  | some _, none, _ => simp [jsContains] at h1
  | none, _, _ => simp [jsContains] at h1

theorem jsContains_antisymm {a b : Option Dom} (h1 : jsContains a b = true)
    (h2 : jsContains b a = true) : a = b := by
  match a, b with
  | some da, some db =>
      simp only [jsContains, decide_eq_true_eq] at h1 h2
      exact congrArg some (subtrees_antisymm h1 h2)
  | some _, none => simp [jsContains] at h1
  | none, _ => simp [jsContains] at h1

/-- Everything the containment sweep returns was already in the input. -/
theorem pruneRev_subset (jq : JQR) : ∀ (r k : List String) (z : String),
    z ∈ pruneRev jq r k → z ∈ r ++ k := by
  intro r
  induction r with
  | nil => intro k z hz; simpa [pruneRev] using hz
  | cons x t ih =>
      intro k z hz
      simp only [pruneRev] at hz
      split at hz
      · have := ih k z hz
        simp only [List.cons_append, List.mem_cons, List.mem_append] at *
        tauto
      · have := ih (x :: k) z hz
        simp only [List.cons_append, List.mem_cons, List.mem_append] at *
        tauto

/-- Core removal property of the containment sweep: a selector whose first
match is contained in the distinct first match of some other selector of the
pool never survives. The pool invariant (existence of such a strictly larger
other selector) is preserved when that other selector is itself spliced out,
because its remover contains it and, by transitivity and antisymmetry, is
again a strictly larger member of the pool. -/
theorem pruneRev_drops (jq : JQR) : ∀ (r k : List String) (x : String),
    x ∉ k →
    (∃ z, z ∈ r ++ k ∧ jsContains (elemOfSel jq z) (elemOfSel jq x) = true ∧
        elemOfSel jq z ≠ elemOfSel jq x) →
    x ∉ pruneRev jq r k := by
  intro r
  induction r with
  | nil =>
      intro k x hk _hz
      simpa [pruneRev] using hk
  | cons hsel t ih =>
      intro k x hk hz
      obtain ⟨z, hzmem, hzc, hzne⟩ := hz
      simp only [pruneRev]
      split
      · rename_i hany
        apply ih k x hk
        rcases (List.mem_cons.mp (by simpa using hzmem) : z = hsel ∨ z ∈ t ++ k) with hzh | hzt
        · subst hzh
          obtain ⟨y, hy, hyc⟩ := List.any_eq_true.mp hany
          refine ⟨y, ?_, jsContains_trans hyc hzc, ?_⟩
          · simp only [List.mem_append, List.mem_reverse] at hy
            simpa [List.mem_append] using hy
          · intro heq
            rw [heq] at hyc
            exact hzne (jsContains_antisymm hzc hyc)
        · exact ⟨z, hzt, hzc, hzne⟩
      · rename_i hany
        have hne : hsel ≠ x := by
          intro heq
          subst heq
          have hz' : z ∈ t ++ k := by
            rcases (List.mem_cons.mp (by simpa using hzmem) : z = hsel ∨ z ∈ t ++ k) with h | h
            · exact absurd (congrArg (elemOfSel jq) h) hzne
            · exact h
          apply hany
          refine List.any_eq_true.mpr ⟨z, ?_, hzc⟩
          simp only [List.mem_append, List.mem_reverse]
          simpa [List.mem_append] using hz'
        apply ih (hsel :: k) x
        · intro hmem
          rcases List.mem_cons.mp hmem with h | h
          · exact hne h.symm
          · exact hk h
        · refine ⟨z, ?_, hzc, hzne⟩
          rcases (List.mem_cons.mp (by simpa using hzmem) : z = hsel ∨ z ∈ t ++ k) with h | h
          · subst h
            simp
          · simp only [List.mem_append, List.mem_cons] at h ⊢
            tauto

/-- Membership is unchanged by the dedup filter. -/
theorem mem_dedupeJS {l : List String} {x : String} : x ∈ dedupeJS l ↔ x ∈ l := by
  constructor
  · intro hx
    unfold dedupeJS at hx
    obtain ⟨p, hp, hps⟩ := List.mem_map.mp hx
    have : x ∈ l.enum.map Prod.snd :=
      List.mem_map.mpr ⟨p, (List.filter_sublist _).subset hp, hps⟩
    simpa using this
  · intro hx
    unfold dedupeJS
    refine List.mem_map.mpr ⟨(l.indexOf x, x), ?_, rfl⟩
    refine List.mem_filter.mpr ⟨?_, ?_⟩
    · exact List.mk_mem_enum_iff_getElem?.mpr (List.getElem?_indexOf hx)
    · simp

theorem one_lt_length_of_two_mem {l : List String} {x y : String}
    (hx : x ∈ l) (hy : y ∈ l) (hxy : x ≠ y) : 1 < l.length := by
  match l with
  | [] => cases hx
  | [a] =>
      simp at hx hy
      subst hx
      subst hy
      exact absurd rfl hxy
  | a :: b :: t =>
      simp

/-- C7: first conjunct: for every selector of the pending list whose first
matched element in the current tree is a strict DOM descendant of the first
matched element of another pending selector, the selector list that _refresh
actually patches (dedup plus containment sweep) no longer contains it, so its
subtree is not replaced separately. Second conjunct: with pending list of two
selectors a and b where the match of b lies strictly inside the match of a,
the patched list is exactly the singleton a. -/
theorem c7_contained_selector_not_patched :
    (∀ (jq : JQR) (L : List String) (x y : String) (dx dy : Dom),
        x ∈ L → y ∈ L →
        elemOfSel jq x = some dx → elemOfSel jq y = some dy →
        dx ∈ subtreesOf dy → dx ≠ dy →
        x ∉ refreshSelectors jq L) ∧
    (∀ (jq : JQR) (a b : String) (da db : Dom),
        a ≠ b →
        elemOfSel jq a = some da → elemOfSel jq b = some db →
        db ∈ subtreesOf da → da ≠ db →
        refreshSelectors jq [a, b] = [a]) := by
  constructor
  · intro jq L x y dx dy hxL hyL hex hey hsub hnd
    have hxy : x ≠ y := by
      intro h
      subst h
      rw [hex] at hey
      cases hey
      exact hnd rfl
    have hxd : x ∈ dedupeJS L := mem_dedupeJS.mpr hxL
    have hyd : y ∈ dedupeJS L := mem_dedupeJS.mpr hyL
    have hlen : 1 < (dedupeJS L).length := one_lt_length_of_two_mem hxd hyd hxy
    unfold refreshSelectors
    rw [if_pos hlen]
    unfold pruneContained
    apply pruneRev_drops
    · simp
    · refine ⟨y, ?_, ?_, ?_⟩
      · simpa using hyd
      · rw [hey, hex]
        simpa [jsContains] using hsub
      · rw [hey, hex]
        intro h
        cases h
        exact hnd rfl
  · intro jq a b da db hab hea heb hsub hnd
    have hia : [a, b].indexOf a = 0 := List.indexOf_cons_self a [b]
    have hib : [a, b].indexOf b = 1 := by
      rw [List.indexOf_cons_ne _ hab, List.indexOf_cons_self]
    have hded : dedupeJS [a, b] = [a, b] := by
      unfold dedupeJS
      simp [List.enum, List.enumFrom, hia, hib]
    have hc1 : jsContains (elemOfSel jq a) (elemOfSel jq b) = true := by
      rw [hea, heb]
      simpa [jsContains] using hsub
    simp [refreshSelectors, hded, pruneContained, pruneRev, hc1]

/-- Nodes of the sample tree: an element matching .b nested inside an element
matching .a, under a neutral root. -/
def nodeB : Dom := .elem 3 "span" [".b"] []

/-- The .a element containing the .b element. -/
def nodeA : Dom := .elem 2 "div" [".a"] [nodeB]

/-- The rendered root wrapping the .a subtree. -/
def rootDom : Dom := .elem 1 "div" [] [nodeA]

/-- The cached rendered tree of the sample instance. -/
def sampleJq : JQR := ⟨20, true, [rootDom]⟩

/-- Witness for C7 at a concrete input: with refresh list [.a, .b] and the .b
match nested inside the .a match, the patched selector list drops .b and is
exactly [.a]. -/
theorem c7_witness :
    (".b" ∉ refreshSelectors sampleJq [".a", ".b"]) ∧
    refreshSelectors sampleJq [".a", ".b"] = [".a"] :=
  ⟨c7_contained_selector_not_patched.1 sampleJq [".a", ".b"] ".b" ".a" nodeB nodeA
      (by decide) (by decide) (by decide) (by decide) (by decide) (by decide),
   c7_contained_selector_not_patched.2 sampleJq ".a" ".b" nodeA nodeB
      (by decide) (by decide) (by decide) (by decide) (by decide)⟩

/-! ## C2: the pendingFetchCount lifecycle

The asynchronous life of the counter is modeled by a small step relation:
a synchronous init call starts up to two task groups (active and passive), a
_fetch call starts up to one, and each outstanding group later settles once,
by success (running the corresponding then-continuation) or by failure
(running the corresponding catch-continuation, which only logs). -/

/-- The kinds of task groups that are started. The fetchG constructor records
the loadMask flag captured by the closure of the _fetch continuation: inside
the branch that starts a group, the mask was shown exactly when delayRefresh
was requested. -/
inductive GKind where
  | active
  | passive
  | fetchG (loadMask : Bool)
deriving DecidableEq

/-- The groups started by one init call, in the order the source starts
them. -/
def initGroups (s : Inst) : List GKind :=
  (if ((initEntries s).filter (fun e => e.preventRender)).length > 0
   then [GKind.active] else []) ++
  (if ((initEntries s).filter (fun e => !e.preventRender)).length > 0
   then [GKind.passive] else [])

/-- The group started by one _fetch call, when the list is non-empty. -/
def fetchCallGroups (d : Bool) (fl : List String) : List GKind :=
  if fl.length > 0 then [GKind.fetchG d] else []

/-- The success continuation of each group kind. -/
def okCont (h : Hooks) : GKind → Inst × Sched → Inst × Sched
  | .active => initActiveOk h
  | .passive => initPassiveOk
  | .fetchG m => fetchGroupOk m

/-- The failure continuation of each group kind: all three catch handlers
only log the error. -/
def failCont : GKind → Inst × Sched → Inst × Sched
  | .active => initActiveFail
  | .passive => initPassiveFail
  | .fetchG _ => fetchGroupFail

/-- One step of the fetch-counter engine. The third state component lists the
outstanding groups; settlement picks one of them. -/
inductive EngineStep (h : Hooks) :
    Inst × Sched × List GKind → Inst × Sched × List GKind → Prop where
  | initCall (s : Inst) (q : Sched) (out : List GKind) (s' : Inst) :
      init h s = Except.ok s' →
      EngineStep h (s, q, out) (s', q, initGroups s ++ out)
  | fetchCall (d : Bool) (fl : List String) (s : Inst) (q : Sched) (out : List GKind) :
      EngineStep h (s, q, out) (_fetch d fl s, q, fetchCallGroups d fl ++ out)
  | settleOk (g : GKind) (o1 o2 : List GKind) (s : Inst) (q : Sched) :
      EngineStep h (s, q, o1 ++ g :: o2)
        ((okCont h g (s, q)).1, (okCont h g (s, q)).2, o1 ++ o2)
  | settleFail (g : GKind) (o1 o2 : List GKind) (s : Inst) (q : Sched) :
      EngineStep h (s, q, o1 ++ g :: o2)
        ((failCont g (s, q)).1, (failCont g (s, q)).2, o1 ++ o2)

/-- States reachable from a freshly constructed instance: the constructor
sets pendingFetchCount to zero and no group is outstanding. -/
inductive EngineReach (h : Hooks) : Inst × Sched × List GKind → Prop where
  | start (s : Inst) (q : Sched) :
      s.pendingFetchCount = 0 → EngineReach h (s, q, [])
  | step {a b} : EngineReach h a → EngineStep h a b → EngineReach h b

/-- A successful init call increments the counter once per group it
starts. -/
theorem init_count (h : Hooks) (s s' : Inst)
    (hneutral : ∀ t, (h.initF t).pendingFetchCount = t.pendingFetchCount)
    (hok : init h s = Except.ok s') :
    s'.pendingFetchCount = s.pendingFetchCount + (initGroups s).length := by
  unfold init at hok
  split at hok
  · cases hok
  · injection hok with hok
    subst hok
    unfold initGroups
    by_cases ha : ((initEntries s).filter (fun e => e.preventRender)).length > 0
    · by_cases hp : ((initEntries s).filter (fun e => !e.preventRender)).length > 0
      · simp [ha, hp, hneutral]
        omega
      · simp [ha, hp, hneutral]
    · by_cases hp : ((initEntries s).filter (fun e => !e.preventRender)).length > 0
      · simp [ha, hp, hneutral]
      · simp [ha, hp, hneutral]

/-- A _fetch call increments the counter once when it starts a group and not
at all otherwise. -/
theorem _fetch_count (d : Bool) (fl : List String) (s : Inst) :
    (_fetch d fl s).pendingFetchCount =
      s.pendingFetchCount + (fetchCallGroups d fl).length := by
  unfold _fetch fetchCallGroups
  by_cases hl : fl.length > 0
  · by_cases hd : d = true <;> simp [hl, hd]
  · by_cases hd : d = true <;> simp [hl, hd]

/-- Every success continuation decrements the counter exactly once. -/
theorem okCont_count (h : Hooks) (g : GKind) (st : Inst × Sched)
    (hneutral : ∀ t, (h.initF t).pendingFetchCount = t.pendingFetchCount) :
    ((okCont h g st).1).pendingFetchCount = st.1.pendingFetchCount - 1 := by
  cases g with
  | active => simp [okCont, initActiveOk, hneutral]
  | passive => simp [okCont, initPassiveOk]
  | fetchG m =>
      cases m <;> simp [okCont, fetchGroupOk]

/-- Every failure continuation leaves the state untouched. -/
theorem failCont_id (g : GKind) (st : Inst × Sched) : failCont g st = st := by
  cases g <;> rfl

/-- The reachability invariant: the counter dominates the number of
outstanding groups (failed groups keep it elevated), hence never becomes
negative. -/
theorem engineReach_count_ge (h : Hooks)
    (hneutral : ∀ t, (h.initF t).pendingFetchCount = t.pendingFetchCount) :
    ∀ st, EngineReach h st → (st.2.2.length : Int) ≤ st.1.pendingFetchCount := by
  intro st hr
  induction hr with
  | start s q h0 => simp [h0]
  | step hra hstep ih =>
      cases hstep with
      | initCall s q out s' hok =>
          have hc := init_count h s s' hneutral hok
          simp only at ih ⊢
          rw [hc]
          simp only [List.length_append]
          push_cast
          omega
      | fetchCall d fl s q out =>
          have hc := _fetch_count d fl s
          simp only at ih ⊢
          rw [hc]
          simp only [List.length_append]
          push_cast
          omega
      | settleOk g o1 o2 s q =>
          have hc := okCont_count h g (s, q) hneutral
          simp only at ih ⊢
          rw [hc]
          simp only [List.length_append, List.length_cons] at ih ⊢
          push_cast at ih ⊢
          omega
      | settleFail g o1 o2 s q =>
          rw [failCont_id]
          simp only [List.length_append, List.length_cons] at ih ⊢
          push_cast at ih ⊢
          omega

/-- C2 as amended: from construction on, pendingFetchCount never becomes
negative; it is incremented exactly once when a fetch or init task group
starts; it is decremented exactly once when a group settles successfully;
and a group that settles by failure changes nothing at all, so the counter
is not decremented then (this is where the original claim fails). The
neutrality hypothesis on the optional component _init hook says that this
component hook does not itself write the counter, which holds in particular
when the hook is absent. -/
theorem c2_fetch_count_lifecycle :
    (∀ (h : Hooks), (∀ t, (h.initF t).pendingFetchCount = t.pendingFetchCount) →
      ∀ st, EngineReach h st → 0 ≤ st.1.pendingFetchCount) ∧
    (∀ (d : Bool) (fl : List String) (s : Inst), 0 < fl.length →
      (_fetch d fl s).pendingFetchCount = s.pendingFetchCount + 1) ∧
    (∀ (h : Hooks) (s s' : Inst),
      (∀ t, (h.initF t).pendingFetchCount = t.pendingFetchCount) →
      init h s = Except.ok s' →
      s'.pendingFetchCount = s.pendingFetchCount + (initGroups s).length) ∧
    (∀ (h : Hooks) (g : GKind) (st : Inst × Sched),
      (∀ t, (h.initF t).pendingFetchCount = t.pendingFetchCount) →
      ((okCont h g st).1).pendingFetchCount = st.1.pendingFetchCount - 1) ∧
    (∀ (g : GKind) (st : Inst × Sched), failCont g st = st) := by
  refine ⟨?_, ?_, ?_, ?_, ?_⟩
  · intro h hneutral st hr
    have := engineReach_count_ge h hneutral st hr
    have hlen : (0 : Int) ≤ (st.2.2.length : Int) := by positivity
    omega
  · intro d fl s hl
    rw [_fetch_count]
    simp [fetchCallGroups, hl]
  · exact fun h s s' => init_count h s s'
  · exact fun h g st hneutral => okCont_count h g st hneutral
  · exact failCont_id

/-- C2 counterexample: the claim states the counter is decremented when the
group settles, whether by success or by failure. Starting one _fetch group on
a fresh instance raises the counter to one; the failure continuation then
leaves it at one instead of returning it to zero, so the claim as stated is
false at this concrete input. -/
theorem c2_counterexample :
    (_fetch true ["m"] freshInst).pendingFetchCount = 1 ∧
    (fetchGroupFail (_fetch true ["m"] freshInst, Sched.empty)).1.pendingFetchCount = 1 ∧
    ¬ ((fetchGroupFail (_fetch true ["m"] freshInst, Sched.empty)).1.pendingFetchCount = 0) := by
  refine ⟨rfl, rfl, ?_⟩
  intro hcontra
  exact absurd hcontra (by decide)

/-- Witness for C2 at concrete inputs: the invariant holds at the state
reached by starting one _fetch group and failing it, and one group start
increments the counter by one. -/
theorem c2_witness :
    0 ≤ (_fetch true ["m"] freshInst).pendingFetchCount ∧
    (_fetch true ["m"] freshInst).pendingFetchCount = freshInst.pendingFetchCount + 1 := by
  have h0 : EngineReach noHooks (freshInst, Sched.empty, ([] : List GKind)) :=
    EngineReach.start freshInst Sched.empty rfl
  have h1 : EngineReach noHooks
      (_fetch true ["m"] freshInst, Sched.empty, fetchCallGroups true ["m"] ++ []) :=
    h0.step (EngineStep.fetchCall true ["m"] freshInst Sched.empty [])
  have h2 : EngineReach noHooks
      ((failCont (GKind.fetchG true) (_fetch true ["m"] freshInst, Sched.empty)).1,
       (failCont (GKind.fetchG true) (_fetch true ["m"] freshInst, Sched.empty)).2,
       [] ++ ([] : List GKind)) :=
    h1.step (EngineStep.settleFail (GKind.fetchG true) [] []
      (_fetch true ["m"] freshInst) Sched.empty)
  exact ⟨c2_fetch_count_lifecycle.1 noHooks (fun _ => rfl) _ h2,
    c2_fetch_count_lifecycle.2.1 true ["m"] freshInst (by decide)⟩

/-! ## C8: registerChild (source lines 1057-1077) -/

/-- A JavaScript value passed to registerChild: either a single component
instance or an array of components (one repetition of a repeatable section).
The objId field models reference identity; the duplicate test of the source
compares references with indexOf, so equality on this type is by object
identity. -/
inductive CVal where
  | comp (objId : Nat)
  | arr (objId : Nat) (elems : List Nat)
deriving DecidableEq

/-- Message of the configuration error thrown for a non-array registration in
a named section. -/
def registerChildErrMsg : String :=
  "registerChild: components of a repeatable section must be registered in an array"

/-- The registry update of registerChild: create the section list when the
key is undefined, then push the value unless the same reference is already
present. -/
def pushChild (reg : List (String × List CVal)) (sectionName : String)
    (child : CVal) : List (String × List CVal) :=
  let reg :=
    if (reg.lookup sectionName).isNone then reg ++ [(sectionName, [])] else reg
  reg.map (fun p =>
    if p.1 = sectionName then
      (p.1, if p.2.contains child then p.2 else p.2 ++ [child])
    else p)

/-- registerChild: an omitted section name selects the reserved default
section; a supplied section name requires the child argument to be an array,
and a non-array argument throws the configuration error before the registry
is touched. -/
def registerChild (reg : List (String × List CVal)) (child : CVal)
    (sectionName : Option String) : Except String (List (String × List CVal)) :=
  match sectionName with
  | none => Except.ok (pushChild reg "default" child)
  | some sn =>
    match child with
    | .comp _ => Except.error registerChildErrMsg
    | .arr i es => Except.ok (pushChild reg sn (.arr i es))

/-- C8: for every registry state, every non-array component value and every
supplied section name, registerChild raises the synchronous configuration
error; the throw happens before any registry mutation, so no updated registry
is produced and the registry is left unchanged by the aborted call. -/
theorem c8_registerChild_nonarray_error (reg : List (String × List CVal))
    (objId : Nat) (sn : String) :
    registerChild reg (.comp objId) (some sn) = Except.error registerChildErrMsg :=
  rfl

/-! ## C9: the constructor data merge (source lines 170-179 and 324-328)

    var dataSuperSet = {};
    $.extend(true, dataSuperSet, defaults.data, data);
    $.extend(true, data, dataSuperSet);
    ...
    this._data = data;

The heap maps object addresses to plain JavaScript objects (association
lists of fields); the caller retains the address of its data object, and the
extend calls mutate the object stored at that address in place. jQuery deep
extend recurses into plain nested objects and assigns every other defined
value; array sources and the self-assignment guard of the source library are
outside the claims and not modeled. -/

/-- A plain JavaScript value: a primitive or a plain object given by its
ordered fields. -/
inductive JVal where
  | num (n : Int)
  | str (s : String)
  | bool (b : Bool)
  | null
  | obj (fields : List (String × JVal))

mutual

def JVal.beq : JVal → JVal → Bool
  | .num a, .num b => a == b
  | .str a, .str b => a == b
  | .bool a, .bool b => a == b
  | .null, .null => true
  | .obj a, .obj b => JVal.beqFields a b
  | _, _ => false

def JVal.beqFields : List (String × JVal) → List (String × JVal) → Bool
  | [], [] => true
  | (k1, v1) :: r1, (k2, v2) :: r2 => k1 == k2 && JVal.beq v1 v2 && JVal.beqFields r1 r2
  | _, _ => false

end

mutual

theorem jvalBeq_iff : ∀ a b : JVal, JVal.beq a b = true ↔ a = b
  | .num _, .num _ => by simp [JVal.beq]
  | .num _, .str _ => by simp [JVal.beq]
  | .num _, .bool _ => by simp [JVal.beq]
  | .num _, .null => by simp [JVal.beq]
  | .num _, .obj _ => by simp [JVal.beq]
  | .str _, .num _ => by simp [JVal.beq]
  | .str _, .str _ => by simp [JVal.beq]
  | .str _, .bool _ => by simp [JVal.beq]
  | .str _, .null => by simp [JVal.beq]
  | .str _, .obj _ => by simp [JVal.beq]
  | .bool _, .num _ => by simp [JVal.beq]
  | .bool _, .str _ => by simp [JVal.beq]
  | .bool _, .bool _ => by simp [JVal.beq]
  | .bool _, .null => by simp [JVal.beq]
  | .bool _, .obj _ => by simp [JVal.beq]
  | .null, .num _ => by simp [JVal.beq]
  | .null, .str _ => by simp [JVal.beq]
  | .null, .bool _ => by simp [JVal.beq]
  | .null, .null => by simp [JVal.beq]
  | .null, .obj _ => by simp [JVal.beq]
  | .obj a, .num _ => by simp [JVal.beq]
  | .obj a, .str _ => by simp [JVal.beq]
  | .obj a, .bool _ => by simp [JVal.beq]
  | .obj a, .null => by simp [JVal.beq]
  | .obj a, .obj b => by simp [JVal.beq, jvalBeqFields_iff a b]

theorem jvalBeqFields_iff : ∀ a b : List (String × JVal),
    JVal.beqFields a b = true ↔ a = b
  | [], [] => by simp [JVal.beqFields]
  | [], _ :: _ => by simp [JVal.beqFields]
  | _ :: _, [] => by simp [JVal.beqFields]
  | (k1, v1) :: r1, (k2, v2) :: r2 => by
      simp [JVal.beqFields, jvalBeq_iff v1 v2, jvalBeqFields_iff r1 r2, and_assoc]

end

instance : DecidableEq JVal := fun a b => decidable_of_iff _ (jvalBeq_iff a b)

/-- Property read on a plain object: the value at the first field with the
given name, if any. -/
def getK (fs : List (String × JVal)) (k : String) : Option JVal :=
  (fs.find? (fun p => p.1 == k)).map (fun p => p.2)

/-- Property write on a plain object: overwrite the field when the name is
present, append it otherwise. -/
def setK (fs : List (String × JVal)) (k : String) (v : JVal) :
    List (String × JVal) :=
  if fs.any (fun p => p.1 == k) then
    fs.map (fun p => if p.1 == k then (k, v) else p)
  else fs ++ [(k, v)]

/- Deep extend of a target object by a source object, per source field in
order: a plain-object source value is merged recursively into the existing
target value when that is itself a plain object (into a fresh empty object
otherwise); every other source value is assigned. extendStep performs the
assignment for one field. -/
mutual

def extendObj : List (String × JVal) → List (String × JVal) → List (String × JVal)
  | tf, [] => tf
  | tf, (k, v) :: rest => extendObj (extendStep tf k v) rest

def extendStep (tf : List (String × JVal)) (k : String) : JVal → List (String × JVal)
  | JVal.obj sf =>
      setK tf k (JVal.obj (extendObj
        (match getK tf k with
         | some (JVal.obj bf) => bf
         | _ => []) sf))
  | v => setK tf k v

end

/-- Well-formedness of a JavaScript value: object field names are pairwise
distinct at every level (JavaScript objects cannot carry duplicate keys). -/
def keysNodup : List String → Bool
  | [] => true
  | k :: rest => !(rest.contains k) && keysNodup rest

mutual

def wfV : JVal → Bool
  | .num _ => true
  | .str _ => true
  | .bool _ => true
  | .null => true
  | .obj fs => keysNodup (fs.map (fun p => p.1)) && wfFields fs

def wfFields : List (String × JVal) → Bool
  | [] => true
  | p :: rest => wfV p.2 && wfFields rest

end

/-- The data handling of the constructor: build the superset object by deep
extending an empty object with defaults.data and then with the data argument,
deep extend the data argument in place with the superset, and store the same
address as the _data property of the instance. -/
def constructorDataStep (heap : Nat → List (String × JVal)) (dataAddr : Nat)
    (defaultsData : List (String × JVal)) :
    (Nat → List (String × JVal)) × Nat :=
  let dataFields := heap dataAddr
  let dataSuperSet := extendObj (extendObj [] defaultsData) dataFields
  let merged := extendObj dataFields dataSuperSet
  (fun a => if a = dataAddr then merged else heap a, dataAddr)

/-- A property write performed through the instance: this.data writes reach
this._data, the object stored at the retained address. -/
def instWrite (heap : Nat → List (String × JVal)) (addr : Nat) (k : String)
    (v : JVal) : Nat → List (String × JVal) :=
  fun a => if a = addr then setK (heap a) k v else heap a

/-! ### Field lookup and update lemmas -/

/-- Absence of a key is absence among the field names. -/
theorem getK_eq_none_iff {fs : List (String × JVal)} {k : String} :
    getK fs k = none ↔ k ∉ fs.map (fun p => p.1) := by
  induction fs with
  | nil => simp [getK]
  | cons p rest ih =>
      by_cases hp : p.1 = k
      · rw [getK, List.find?_cons_of_pos _ (by simp [hp])]
        simp [hp]
      · rw [getK, List.find?_cons_of_neg _ (by simp [hp])]
        rw [getK] at ih
        simp only [List.map_cons, List.mem_cons]
        rw [ih]
        constructor
        · intro hn hc
          rcases hc with hc | hc
          · exact hp hc.symm
          · exact hn hc
        · intro hn hc
          exact hn (Or.inr hc)

/-- The any test of setK agrees with getK. -/
theorem any_key_eq_false_of_getK_none {fs : List (String × JVal)} {k : String}
    (h : getK fs k = none) : fs.any (fun p => p.1 == k) = false := by
  have hk := getK_eq_none_iff.mp h
  rw [List.any_eq_false]
  intro p hp hpk
  exact hk (List.mem_map.mpr ⟨p, hp, by simpa using hpk⟩)

/-- Writing an absent key appends the field. -/
theorem setK_not_mem {fs : List (String × JVal)} {k : String} (v : JVal)
    (h : getK fs k = none) : setK fs k v = fs ++ [(k, v)] := by
  rw [setK, if_neg]
  rw [any_key_eq_false_of_getK_none h]
  simp

/-- Reading back the key just overwritten in place. -/
theorem getK_map_update (fs : List (String × JVal)) (k : String) (v : JVal)
    (h : fs.any (fun p => p.1 == k) = true) :
    getK (fs.map (fun p => if p.1 == k then (k, v) else p)) k = some v := by
  induction fs with
  | nil => simp at h
  | cons p rest ih =>
      by_cases hp : p.1 = k
      · simp only [List.map_cons]
        rw [if_pos (by simp [hp])]
        rw [getK, List.find?_cons_of_pos _ (by simp)]
        rfl
      · simp only [List.map_cons]
        rw [if_neg (by simp [hp])]
        have hr : rest.any (fun p => p.1 == k) = true := by
          rcases List.any_eq_true.mp h with ⟨q, hq, hqk⟩
          rcases List.mem_cons.mp hq with rfl | hq2
          · exact absurd (by simpa using hqk) hp
          · exact List.any_eq_true.mpr ⟨q, hq2, hqk⟩
        rw [getK, List.find?_cons_of_neg _ (by simp [hp])]
        exact ih hr

/-- Reading back the key just written. -/
theorem getK_setK_same (fs : List (String × JVal)) (k : String) (v : JVal) :
    getK (setK fs k v) k = some v := by
  rw [setK]
  split
  · rename_i hany
    exact getK_map_update fs k v hany
  · rename_i hany
    have hnone : getK fs k = none := by
      rw [getK_eq_none_iff]
      intro hmem
      apply hany
      rcases List.mem_map.mp hmem with ⟨p, hp, hpk⟩
      exact List.any_eq_true.mpr ⟨p, hp, by simp [hpk]⟩
    rw [getK, List.find?_append]
    have hfs : List.find? (fun p => p.1 == k) fs = none := by
      rw [getK] at hnone
      exact Option.map_eq_none.mp hnone
    rw [hfs]
    simp [List.find?]

/-- The in-place overwrite leaves other keys alone. -/
theorem getK_map_update_other (fs : List (String × JVal)) (k : String) (v : JVal)
    (k' : String) (h : k' ≠ k) :
    getK (fs.map (fun p => if p.1 == k then (k, v) else p)) k' = getK fs k' := by
  induction fs with
  | nil => rfl
  | cons p rest ih =>
      by_cases hp : p.1 = k
      · simp only [List.map_cons]
        rw [if_pos (by simp [hp])]
        rw [getK, List.find?_cons_of_neg _ (by simp [Ne.symm h])]
        rw [getK, List.find?_cons_of_neg _ (by simp [hp]; exact Ne.symm h)]
        exact ih
      · simp only [List.map_cons]
        rw [if_neg (by simp [hp])]
        by_cases hpk : p.1 = k'
        · rw [getK, List.find?_cons_of_pos _ (by simp [hpk])]
          rw [getK, List.find?_cons_of_pos _ (by simp [hpk])]
        · rw [getK, List.find?_cons_of_neg _ (by simp [hpk])]
          rw [getK, List.find?_cons_of_neg _ (by simp [hpk])]
          exact ih

/-- setK leaves other keys alone. -/
theorem getK_setK_other {fs : List (String × JVal)} {k : String} (v : JVal)
    (k' : String) (h : k' ≠ k) : getK (setK fs k v) k' = getK fs k' := by
  rw [setK]
  split
  · exact getK_map_update_other fs k v k' h
  · rw [getK, List.find?_append, getK]
    have hkk : (k == k') = false := by
      simp [Ne.symm h]
    have hone : List.find? (fun p => p.1 == k') [(k, v)] = none := by
      simp only [List.find?]
      rw [hkk]
    rw [hone]
    cases List.find? (fun p => p.1 == k') fs <;> rfl

/-- extendStep writes only its own key. -/
theorem getK_extendStep_other (tf : List (String × JVal)) (k1 : String)
    (v : JVal) (k : String) (h : k1 ≠ k) :
    getK (extendStep tf k1 v) k = getK tf k := by
  cases v <;> exact getK_setK_other _ k (Ne.symm h)

/-- extendObj leaves keys absent from the source untouched. -/
theorem getK_extendObj_not_mem : ∀ (sf tf : List (String × JVal)) (k : String),
    k ∉ sf.map (fun p => p.1) →
    getK (extendObj tf sf) k = getK tf k := by
  intro sf
  induction sf with
  | nil => intro tf k _; rfl
  | cons p rest ih =>
      intro tf k h
      obtain ⟨k1, v⟩ := p
      simp only [List.map_cons, List.mem_cons] at h
      push_neg at h
      rw [extendObj]
      rw [ih _ k h.2]
      exact getK_extendStep_other tf k1 v k (fun he => h.1 he.symm)

/-- The in-place overwrite does not change the field names. -/
theorem keys_map_update (fs : List (String × JVal)) (k : String) (v : JVal) :
    (fs.map (fun p => if p.1 == k then (k, v) else p)).map (fun p => p.1) =
      fs.map (fun p => p.1) := by
  induction fs with
  | nil => rfl
  | cons p rest ih =>
      by_cases hp : p.1 = k
      · simp only [List.map_cons]
        rw [if_pos (by simp [hp])]
        simp only [List.map_cons]
        rw [ih, hp]
      · simp only [List.map_cons]
        rw [if_neg (by simp [hp])]
        rw [ih]

/-- Appending a fresh key keeps the names pairwise distinct. -/
theorem keysNodup_append_singleton {ks : List String} {k : String}
    (h : keysNodup ks = true) (hk : k ∉ ks) : keysNodup (ks ++ [k]) = true := by
  induction ks with
  | nil => rfl
  | cons a rest ih =>
      simp only [keysNodup, Bool.and_eq_true, Bool.not_eq_true'] at h
      simp only [List.mem_cons, not_or] at hk
      simp only [List.cons_append, keysNodup, Bool.and_eq_true, Bool.not_eq_true']
      refine ⟨?_, ih h.2 hk.2⟩
      have h1 : a ∉ rest := by
        have := h.1
        simpa using this
      have h2 : a ≠ k := fun he => hk.1 he.symm
      simp [h1, h2]

/-- setK keeps field names pairwise distinct. -/
theorem keysNodup_setK {fs : List (String × JVal)} {k : String} (v : JVal)
    (h : keysNodup (fs.map (fun p => p.1)) = true) :
    keysNodup ((setK fs k v).map (fun p => p.1)) = true := by
  rw [setK]
  split
  · rw [keys_map_update]
    exact h
  · rename_i hany
    have hk : k ∉ fs.map (fun p => p.1) := by
      intro hmem
      apply hany
      rcases List.mem_map.mp hmem with ⟨p, hp, hpk⟩
      exact List.any_eq_true.mpr ⟨p, hp, by simp [hpk]⟩
    rw [List.map_append]
    exact keysNodup_append_singleton h hk

/-- extendStep keeps field names pairwise distinct. -/
theorem keysNodup_extendStep {tf : List (String × JVal)} (k : String) (v : JVal)
    (h : keysNodup (tf.map (fun p => p.1)) = true) :
    keysNodup ((extendStep tf k v).map (fun p => p.1)) = true := by
  cases v <;> exact keysNodup_setK _ h

/-- extendObj keeps field names pairwise distinct. -/
theorem keysNodup_extendObj : ∀ (sf tf : List (String × JVal)),
    keysNodup (tf.map (fun p => p.1)) = true →
    keysNodup ((extendObj tf sf).map (fun p => p.1)) = true := by
  intro sf
  induction sf with
  | nil => intro tf h; exact h
  | cons p rest ih =>
      intro tf h
      obtain ⟨k1, v⟩ := p
      rw [extendObj]
      exact ih _ (keysNodup_extendStep k1 v h)

/-- A present key of an object with pairwise distinct field names splits the
field list around its unique occurrence. -/
theorem getK_some_split : ∀ (fs : List (String × JVal)) (k : String) (v : JVal),
    getK fs k = some v → keysNodup (fs.map (fun p => p.1)) = true →
    ∃ pre post, fs = pre ++ (k, v) :: post ∧
      k ∉ pre.map (fun p => p.1) ∧ k ∉ post.map (fun p => p.1) := by
  intro fs
  induction fs with
  | nil => intro k v h _; simp [getK] at h
  | cons p rest ih =>
      intro k v h hnd
      simp only [List.map_cons, keysNodup, Bool.and_eq_true, Bool.not_eq_true'] at hnd
      by_cases hp : p.1 = k
      · rw [getK, List.find?_cons_of_pos _ (by simp [hp])] at h
        simp at h
        refine ⟨[], rest, ?_, by simp, ?_⟩
        · obtain ⟨p1, p2⟩ := p
          simp only [List.nil_append, List.cons.injEq, and_true]
          simp only at hp h
          rw [hp, h]
        · rw [← hp]
          have := hnd.1
          simpa using this
      · rw [getK, List.find?_cons_of_neg _ (by simp [hp])] at h
        obtain ⟨pre, post, heq, hpre, hpost⟩ := ih k v h hnd.2
        refine ⟨p :: pre, post, by simp [heq], ?_, hpost⟩
        simp only [List.map_cons, List.mem_cons, not_or]
        exact ⟨fun he => hp he.symm, hpre⟩

/-- Field values of a well-formed object are well-formed. -/
theorem wfFields_mem : ∀ {fs : List (String × JVal)} {k : String} {v : JVal},
    wfFields fs = true → (k, v) ∈ fs → wfV v = true := by
  intro fs
  induction fs with
  | nil => intro k v _ h; cases h
  | cons p rest ih =>
      intro k v hwf hmem
      simp only [wfFields, Bool.and_eq_true] at hwf
      rcases List.mem_cons.mp hmem with heq | hmem2
      · rw [← heq] at hwf
        exact hwf.1
      · exact ih hwf.2 hmem2

/-- Lookup in an extended object, for a key absent on both sides of the
append. -/
theorem getK_append_singleton_other {tf : List (String × JVal)} {k : String}
    (v : JVal) (k' : String) (h : k' ≠ k) (htf : getK tf k' = none) :
    getK (tf ++ [(k, v)]) k' = none := by
  rw [getK, List.find?_append]
  have h1 : List.find? (fun p => p.1 == k') tf = none := Option.map_eq_none.mp htf
  rw [h1]
  have hkk : (k == k') = false := by simp [Ne.symm h]
  have hone : List.find? (fun p => p.1 == k') [(k, v)] = none := by
    simp only [List.find?]
    rw [hkk]
  rw [hone]
  rfl

/- Deep extension by a source whose keys are all absent from the target is
plain concatenation, and on a well-formed plain-object value the recursive
merge into the empty object is the identity. The two statements are proved
together, mirroring the mutual recursion of extendObj and extendStep. -/
mutual

theorem extendObj_disjoint : ∀ (sf tf : List (String × JVal)),
    (∀ p ∈ sf, getK tf p.1 = none) →
    keysNodup (sf.map (fun p => p.1)) = true →
    wfFields sf = true →
    extendObj tf sf = tf ++ sf
  | [], tf => by
      intro _ _ _
      simp [extendObj]
  | (k, v) :: rest, tf => by
      intro hdis hnd hwf
      simp only [wfFields, Bool.and_eq_true] at hwf
      simp only [List.map_cons, keysNodup, Bool.and_eq_true, Bool.not_eq_true'] at hnd
      have hknotin : k ∉ rest.map (fun p => p.1) := by
        have := hnd.1
        simpa using this
      have hknone : getK tf k = none := hdis (k, v) (List.mem_cons_self _ _)
      rw [extendObj]
      rw [extendStep_wf v tf k hwf.1 hknone]
      rw [setK_not_mem v hknone]
      rw [extendObj_disjoint rest (tf ++ [(k, v)]) ?_ hnd.2 hwf.2]
      · simp
      · intro p hp
        have hpk : p.1 ≠ k := by
          intro he
          exact hknotin (he ▸ List.mem_map_of_mem (fun q => q.1) hp)
        exact getK_append_singleton_other v p.1 hpk (hdis p (List.mem_cons_of_mem _ hp))

theorem extendStep_wf : ∀ (v : JVal) (tf : List (String × JVal)) (k : String),
    wfV v = true → getK tf k = none → extendStep tf k v = setK tf k v
  | JVal.num _, _, _ => by intro _ _; rfl
  | JVal.str _, _, _ => by intro _ _; rfl
  | JVal.bool _, _, _ => by intro _ _; rfl
  | JVal.null, _, _ => by intro _ _; rfl
  | JVal.obj sf, tf, k => by
      intro hwf hnone
      simp only [wfV, Bool.and_eq_true] at hwf
      simp only [extendStep]
      rw [hnone]
      rw [extendObj_disjoint sf [] (fun p _ => rfl) hwf.1 hwf.2]
      simp

end

/-- Lookup of a source key in the deep extension: the surrounding fields of
the source leave the key alone, and the field itself is written with its
(well-formed, hence unchanged) value. -/
theorem getK_extendObj_found : ∀ (pre : List (String × JVal))
    (post tf : List (String × JVal)) (k : String) (v : JVal),
    k ∉ pre.map (fun p => p.1) → k ∉ post.map (fun p => p.1) →
    getK tf k = none → wfV v = true →
    getK (extendObj tf (pre ++ (k, v) :: post)) k = some v := by
  intro pre
  induction pre with
  | nil =>
      intro post tf k v _ hpost htf hwf
      simp only [List.nil_append]
      rw [extendObj]
      rw [getK_extendObj_not_mem post _ k hpost]
      rw [extendStep_wf v tf k hwf htf]
      exact getK_setK_same tf k v
  | cons p rest ih =>
      intro post tf k v hpre hpost htf hwf
      simp only [List.map_cons, List.mem_cons, not_or] at hpre
      obtain ⟨p1, pv⟩ := p
      simp only [List.cons_append]
      rw [extendObj]
      apply ih post _ k v hpre.2 hpost ?_ hwf
      rw [getK_extendStep_other tf p1 pv k ?_]
      · exact htf
      · intro he
        exact hpre.1 he.symm

/-- C9: the data handling of the constructor. The returned _data address is
the very address the caller holds (same object reference); after the two
deep-extend calls the object stored there carries, at every top-level key the
caller data was missing, the value of that key in defaults.data; and a
property written through the stored reference is read back through the caller
address (mutations through the instance are visible through the original
reference). Well-formedness says defaults.data has pairwise distinct keys at
every level, as every JavaScript object literal does. -/
theorem c9_constructor_data_merge (heap : Nat → List (String × JVal))
    (dataAddr : Nat) (defaultsData : List (String × JVal)) (k : String) (v : JVal)
    (hwf : wfV (JVal.obj defaultsData) = true)
    (hmiss : getK (heap dataAddr) k = none)
    (hdef : getK defaultsData k = some v) :
    (constructorDataStep heap dataAddr defaultsData).2 = dataAddr ∧
    getK ((constructorDataStep heap dataAddr defaultsData).1 dataAddr) k = some v ∧
    (∀ (k2 : String) (v2 : JVal),
      getK (instWrite (constructorDataStep heap dataAddr defaultsData).1
        (constructorDataStep heap dataAddr defaultsData).2 k2 v2 dataAddr) k2 = some v2) := by
  simp only [wfV, Bool.and_eq_true] at hwf
  have hd' : extendObj [] defaultsData = defaultsData := by
    have := extendObj_disjoint defaultsData [] (fun p _ => rfl) hwf.1 hwf.2
    simpa using this
  refine ⟨rfl, ?_, ?_⟩
  · simp only [constructorDataStep, if_true]
    rw [hd']
    have hkeys : k ∉ (heap dataAddr).map (fun p => p.1) := getK_eq_none_iff.mp hmiss
    have hsup : getK (extendObj defaultsData (heap dataAddr)) k = some v := by
      rw [getK_extendObj_not_mem (heap dataAddr) defaultsData k hkeys]
      exact hdef
    have hndsup : keysNodup ((extendObj defaultsData (heap dataAddr)).map
        (fun p => p.1)) = true :=
      keysNodup_extendObj (heap dataAddr) defaultsData hwf.1
    obtain ⟨pre, post, hsplit, hpre, hpost⟩ :=
      getK_some_split _ k v hsup hndsup
    have hwv : wfV v = true := by
      obtain ⟨pre0, post0, hs0, _, _⟩ := getK_some_split defaultsData k v hdef hwf.1
      have hmem : (k, v) ∈ defaultsData := by
        rw [hs0]
        exact List.mem_append_right _ (List.mem_cons_self _ _)
      exact wfFields_mem hwf.2 hmem
    rw [hsplit]
    exact getK_extendObj_found pre post (heap dataAddr) k v hpre hpost hmiss hwv
  · intro k2 v2
    simp only [constructorDataStep, instWrite, if_true]
    exact getK_setK_same _ k2 v2

/-- The heap at construction time: the caller data object lives at address 7
and lacks the selected field. -/
def heap0 : Nat → List (String × JVal) := fun _ => [("person_id", JVal.null)]

/-- The defaults.data object of the sample component. -/
def dflt0 : List (String × JVal) :=
  [("person_id", JVal.num 1), ("selected", JVal.bool false)]

/-- Witness for C9 at a concrete input: the stored _data address is the
caller address, the missing selected field arrives with its default value,
and a write through the instance is read back through the caller address. -/
theorem c9_witness :
    (constructorDataStep heap0 7 dflt0).2 = 7 ∧
    getK ((constructorDataStep heap0 7 dflt0).1 7) "selected" = some (JVal.bool false) ∧
    getK (instWrite (constructorDataStep heap0 7 dflt0).1
      (constructorDataStep heap0 7 dflt0).2 "person_id" (JVal.num 42) 7)
      "person_id" = some (JVal.num 42) :=
  ⟨(c9_constructor_data_merge heap0 7 dflt0 "selected" (JVal.bool false)
      (by decide) (by decide) (by decide)).1,
   (c9_constructor_data_merge heap0 7 dflt0 "selected" (JVal.bool false)
      (by decide) (by decide) (by decide)).2.1,
   (c9_constructor_data_merge heap0 7 dflt0 "selected" (JVal.bool false)
      (by decide) (by decide) (by decide)).2.2 "person_id" (JVal.num 42)⟩

end TXMBase
